import Mathlib

/-!
# Verification of the asciicam frame-processing pipeline

A shallow embedding of the asciicam repository's core routines:

* the intensity-to-glyph mapper `pixelToASCII` (image.go and
  internal/ascii's `Converter.pixelToASCII`),
* the ASCII grid renderer `imageToASCII` / `Converter.ImageToASCII`,
* the ANSI half-block renderer `imageToANSI` / `Converter.ImageToANSI`,
* the greenscreen background subtractor `greenscreen` / `Processor.Apply`,
* the background-sample loader `loadBgSamples`,
* the pipeline loop's FPS bookkeeping and sample-generation mode (cmd run loop).

8-bit channels are `ℕ` with the divisions written exactly as Go's integer
division performs them.  Go's `float64` appears only in the glyph-index
computation `math.Floor(float64(intensity)/precision + 0.5)`; for the
magnitudes that occur there (`intensity ≤ 765`, `precision = 54`) every
intermediate float64 value is exactly representable or at distance ≥ 1/108
from the nearest integer boundary, so the computation is modelled exactly
in `ℚ`.  External collaborators (termenv styling, go-colorful's Lab
distance, PNG decode, bilinear resize) are abstracted as parameters.
-/

namespace Asciicam

/-- An 8-bit RGBA pixel as stored by Go's `image.RGBA` (alpha-premultiplied
storage; `color.RGBA`). -/
structure Pixel where
  r : ℕ
  g : ℕ
  b : ℕ
  a : ℕ
deriving DecidableEq, Repr

/-- Go's `color.RGBA{}` zero value: what `image.RGBA.At` returns outside the
image bounds, and what `img.Set(x, y, image.Transparent)` stores (converting
`image.Transparent` through `color.RGBAModel` yields `RGBA{0,0,0,0}`). -/
def transparentPixel : Pixel := ⟨0, 0, 0, 0⟩

/-- A non-alpha-premultiplied 8-bit color, Go's `color.NRGBA`. -/
structure NRGBA where
  r : ℕ
  g : ℕ
  b : ℕ
  a : ℕ
deriving DecidableEq, Repr

/-- Go `color.NRGBA.RGBA()`: the 16-bit, alpha-premultiplied view
(`r |= r<<8; r *= a; r /= 0xff`, and `a |= a<<8`). -/
def NRGBA.rgba16 (c : NRGBA) : ℕ × ℕ × ℕ × ℕ :=
  (c.r * 257 * c.a / 255, c.g * 257 * c.a / 255, c.b * 257 * c.a / 255, c.a * 257)

/-- Go `color.NRGBAModel.Convert` applied to an `image.RGBA` pixel `p`
(whose `RGBA()` is `(p.r*0x101, p.g*0x101, p.b*0x101, p.a*0x101)`):
branches on full / zero / partial alpha exactly as `color.nrgbaModel`. -/
def nrgbaOfPixel (p : Pixel) : NRGBA :=
  let r16 := p.r * 257
  let g16 := p.g * 257
  let b16 := p.b * 257
  let a16 := p.a * 257
  if a16 = 65535 then ⟨r16 / 256, g16 / 256, b16 / 256, 255⟩
  else if a16 = 0 then ⟨0, 0, 0, 0⟩
  else ⟨r16 * 65535 / a16 / 256, g16 * 65535 / a16 / 256, b16 * 65535 / a16 / 256, a16 / 256⟩

/-! ## Color intensity mapper (`pixelToASCII`)

`image.go` and `internal/ascii` use the same fixed 15-glyph table, set by
`NewConverter` (confirmed by the converter's test file). -/

/-- The glyph table, lightest to densest. -/
def pixels : List Char :=
  [' ', '.', ',', ':', ';', 'i', '1', 't', 'f', 'L', 'C', 'G', '0', '8', '@']

/-- The index computation of `pixelToASCII`, from the 16-bit values returned
by `color.Color.RGBA()`:

```go
r := uint(r2 / 256)                                  -- and g, b, a
intensity := (r + g + b) * a / 255
precision := float64(255 * 3 / (len(pixels) - 1))    -- integer division!
v := int(math.Floor(float64(intensity)/precision + 0.5))
```

The float64 arithmetic is exact at these magnitudes and is modelled in `ℚ`. -/
def asciiIndex (r2 g2 b2 a2 : ℕ) : ℤ :=
  let r := r2 / 256
  let g := g2 / 256
  let b := b2 / 256
  let a := a2 / 256
  let intensity := (r + g + b) * a / 255
  let precision : ℚ := ((255 * 3 / (pixels.length - 1) : ℕ) : ℚ)
  ⌊(intensity : ℚ) / precision + 1 / 2⌋

/-- `pixelToASCII` on an `NRGBA` pixel (the pipeline always hands the mapper
`color.NRGBAModel.Convert(img.At(j, i))`): look the index up in the glyph
table.  Go panics on an out-of-range index; the sentinel `'X'` (not a table
entry) marks that impossible case, and `asciiIndex_lt` below shows the index
stays in range. -/
def pixelToASCII (c : NRGBA) : Char :=
  match c.rgba16 with
  | (r2, g2, b2, a2) => pixels.getD (asciiIndex r2 g2 b2 a2).toNat 'X'

/-- The alpha-premultiplied 8-bit channels that the code path
`NRGBA.RGBA()` + `/256` actually feeds into the intensity formula. -/
def premultR (c : NRGBA) : ℕ := c.r * 257 * c.a / 255 / 256

/-- Green premultiplied channel, see `premultR`. -/
def premultG (c : NRGBA) : ℕ := c.g * 257 * c.a / 255 / 256

/-- Blue premultiplied channel, see `premultR`. -/
def premultB (c : NRGBA) : ℕ := c.b * 257 * c.a / 255 / 256

/-- The 8-bit alpha recovered from the 16-bit view (equals `c.a` whenever
`c.a ≤ 255`). -/
def premultA (c : NRGBA) : ℕ := c.a * 257 / 256

/-- The product `(r' + g' + b') * a` of the premultiplied channel sum with
alpha: the quantity the glyph index is monotone in. -/
def premultProduct (c : NRGBA) : ℕ :=
  (premultR c + premultG c + premultB c) * premultA c

/-- The integer intensity `(r' + g' + b') * a / 255` the code computes. -/
def premultIntensity (c : NRGBA) : ℕ := premultProduct c / 255

/-- The glyph index `pixelToASCII` uses for an `NRGBA` pixel, as the code
computes it (an `ℤ`, since Go stores it in an `int`). -/
def glyphIndexOf (c : NRGBA) : ℤ :=
  match c.rgba16 with
  | (r2, g2, b2, a2) => asciiIndex r2 g2 b2 a2

/-- The float-free form of the index computation:
`floor(i/54 + 1/2) = (2*i + 54) / 108` in integer arithmetic. -/
theorem asciiIndex_eq (r2 g2 b2 a2 : ℕ) :
    asciiIndex r2 g2 b2 a2 =
      ((2 * ((r2 / 256 + g2 / 256 + b2 / 256) * (a2 / 256) / 255) + 54) / 108 : ℕ) := by
  have hp : (255 * 3 / (pixels.length - 1) : ℕ) = 54 := by decide
  have h2 : ∀ i : ℕ, ((i : ℕ) : ℚ) / ((54 : ℕ) : ℚ) + 1 / 2 = ((2 * i + 54 : ℕ) : ℚ) / ((108 : ℕ) : ℚ) := by
    intro i
    push_cast
    ring
  simp only [asciiIndex, hp, h2, Rat.floor_natCast_div_natCast]
  exact (Int.natCast_div _ _).symm

/-- `glyphIndexOf` in terms of the premultiplied intensity. -/
theorem glyphIndexOf_eq (c : NRGBA) :
    glyphIndexOf c = ((2 * premultIntensity c + 54) / 108 : ℕ) := by
  simp only [glyphIndexOf, NRGBA.rgba16, asciiIndex_eq]
  rfl

/-- Channel bound for the premultiplied red channel (valid 8-bit inputs). -/
theorem premultR_le (c : NRGBA) (hr : c.r ≤ 255) (ha : c.a ≤ 255) : premultR c ≤ 255 := by
  unfold premultR
  have h1 : c.r * 257 * c.a ≤ 255 * 257 * 255 :=
    Nat.mul_le_mul (Nat.mul_le_mul_right _ hr) ha
  have h2 : c.r * 257 * c.a / 255 ≤ 255 * 257 * 255 / 255 := Nat.div_le_div_right h1
  calc c.r * 257 * c.a / 255 / 256 ≤ 255 * 257 * 255 / 255 / 256 := Nat.div_le_div_right h2
    _ = 255 := by decide

/-- Channel bound for the premultiplied green channel. -/
theorem premultG_le (c : NRGBA) (hg : c.g ≤ 255) (ha : c.a ≤ 255) : premultG c ≤ 255 := by
  unfold premultG
  have h1 : c.g * 257 * c.a ≤ 255 * 257 * 255 :=
    Nat.mul_le_mul (Nat.mul_le_mul_right _ hg) ha
  have h2 : c.g * 257 * c.a / 255 ≤ 255 * 257 * 255 / 255 := Nat.div_le_div_right h1
  calc c.g * 257 * c.a / 255 / 256 ≤ 255 * 257 * 255 / 255 / 256 := Nat.div_le_div_right h2
    _ = 255 := by decide

/-- Channel bound for the premultiplied blue channel. -/
theorem premultB_le (c : NRGBA) (hb : c.b ≤ 255) (ha : c.a ≤ 255) : premultB c ≤ 255 := by
  unfold premultB
  have h1 : c.b * 257 * c.a ≤ 255 * 257 * 255 :=
    Nat.mul_le_mul (Nat.mul_le_mul_right _ hb) ha
  have h2 : c.b * 257 * c.a / 255 ≤ 255 * 257 * 255 / 255 := Nat.div_le_div_right h1
  calc c.b * 257 * c.a / 255 / 256 ≤ 255 * 257 * 255 / 255 / 256 := Nat.div_le_div_right h2
    _ = 255 := by decide

/-- The index is in range for valid 8-bit inputs: Go's `pixels[v]` never
panics on a pixel coming out of `color.NRGBAModel`. -/
theorem asciiIndex_lt (c : NRGBA) (hr : c.r ≤ 255) (hg : c.g ≤ 255) (hb : c.b ≤ 255)
    (ha : c.a ≤ 255) : (2 * premultIntensity c + 54) / 108 < pixels.length := by
  have hA : premultA c ≤ 255 := by
    unfold premultA
    calc c.a * 257 / 256 ≤ 255 * 257 / 256 :=
          Nat.div_le_div_right (Nat.mul_le_mul_right _ ha)
      _ = 255 := by decide
  have hsum : premultR c + premultG c + premultB c ≤ 765 := by
    have := premultR_le c hr ha
    have := premultG_le c hg ha
    have := premultB_le c hb ha
    omega
  have hprod : premultProduct c ≤ 765 * 255 :=
    Nat.mul_le_mul hsum hA
  have hint : premultIntensity c ≤ 765 := by
    unfold premultIntensity
    calc premultProduct c / 255 ≤ 765 * 255 / 255 := Nat.div_le_div_right hprod
      _ = 765 := by decide
  have : (2 * premultIntensity c + 54) / 108 ≤ (2 * 765 + 54) / 108 :=
    Nat.div_le_div_right (by omega)
  calc (2 * premultIntensity c + 54) / 108 ≤ (2 * 765 + 54) / 108 := this
    _ < pixels.length := by decide

/-- `pixelToASCII` is the table lookup at `glyphIndexOf`. -/
theorem pixelToASCII_def (c : NRGBA) :
    pixelToASCII c = pixels.getD (glyphIndexOf c).toNat 'X' := rfl

/-- Per the spec's words (claims C1/C8): the index formula
`floor(intensity / precision + 0.5)` with `intensity = (r + g + b) * alpha / 255`
and `precision = 765 / (glyph_count - 1)`, read as exact arithmetic on the
pixel's channels. -/
def specGlyphIndex (r g b a : ℕ) : ℤ :=
  ⌊(((r : ℚ) + g + b) * a / 255) / (765 / ((pixels.length : ℚ) - 1)) + 1 / 2⌋

/-- The quantity claim C8 says the glyph index is monotone in:
`(r + g + b) * alpha` over the pixel's channels. -/
def rawProduct (c : NRGBA) : ℕ := (c.r + c.g + c.b) * c.a

/-- Cast of the glyph-table length, used to evaluate `specGlyphIndex`. -/
theorem pixels_length_q : ((pixels.length : ℚ)) = 15 := by norm_num [pixels]

/-- **C1, counterexample.**  The code's glyph index differs from the claim's
formula `floor(((r+g+b)*alpha/255) / (765/(glyph_count-1)) + 0.5)`:
at the opaque pixel (255,255,220,255) the code returns `pixels[14] = '@'`
while the formula gives index 13 (the code computes `precision` by *integer*
division `765/14 = 54`); at the translucent pixel (255,255,255,85) the code
returns index 2 while the formula gives 5 (Go's `Color.RGBA()` premultiplies
the channels by alpha before the intensity computation). -/
theorem pixelToASCII_claim_counterexample :
    glyphIndexOf ⟨255, 255, 220, 255⟩ = 14 ∧ specGlyphIndex 255 255 220 255 = 13 ∧
    glyphIndexOf ⟨255, 255, 255, 85⟩ = 2 ∧ specGlyphIndex 255 255 255 85 = 5 ∧
    pixelToASCII ⟨255, 255, 220, 255⟩ = '@' ∧ pixels.getD 13 'X' = '8' := by
  have h1 : glyphIndexOf ⟨255, 255, 220, 255⟩ = 14 := by
    rw [glyphIndexOf_eq]
    decide
  have h2 : specGlyphIndex 255 255 220 255 = 13 := by
    unfold specGlyphIndex
    rw [pixels_length_q]
    have : (((255 : ℕ) : ℚ) + (255 : ℕ) + (220 : ℕ)) * (255 : ℕ) / 255 / (765 / (15 - 1)) + 1 / 2
        = 4241 / 306 := by
      norm_num
    rw [this]
    norm_num [Int.floor_eq_iff]
  have h3 : glyphIndexOf ⟨255, 255, 255, 85⟩ = 2 := by
    rw [glyphIndexOf_eq]
    decide
  have h4 : specGlyphIndex 255 255 255 85 = 5 := by
    unfold specGlyphIndex
    rw [pixels_length_q]
    have : (((255 : ℕ) : ℚ) + (255 : ℕ) + (255 : ℕ)) * (85 : ℕ) / 255 / (765 / (15 - 1)) + 1 / 2
        = 31 / 6 := by
      norm_num
    rw [this]
    norm_num [Int.floor_eq_iff]
  refine ⟨h1, h2, h3, h4, ?_, by decide⟩
  rw [pixelToASCII_def, h1]
  decide

/-- **C1 (amended).**  For every pixel, `pixelToASCII` returns the glyph at
index `floor(intensity/54 + 0.5) = (2*intensity + 54) / 108`, where
`intensity = (r' + g' + b') * a / 255` is computed (all divisions integer)
from the alpha-premultiplied channels `r' = ((r*257*a)/255)/256` that Go's
`Color.RGBA()` produces, and `54` is the integer quotient
`765 / (glyph_count - 1)` the code uses as `precision`. -/
theorem pixelToASCII_amended (c : NRGBA) :
    pixelToASCII c = pixels.getD ((2 * premultIntensity c + 54) / 108) 'X' ∧
    (255 * 3 / (pixels.length - 1) : ℕ) = 54 := by
  refine ⟨?_, by decide⟩
  rw [pixelToASCII_def, glyphIndexOf_eq, Int.toNat_natCast]

/-- **C8, counterexample.**  The glyph index is not monotone in the raw
product `(r+g+b)*alpha`: the two pixels (255,0,0,255) and (255,255,255,85)
have equal raw products `765*85 = 255*255 = 65025`, yet the first maps to
index 5 and the second to index 2 (alpha enters the intensity twice through
premultiplication, so a translucent white ranks below an opaque red). -/
theorem glyphIndex_monotone_counterexample :
    rawProduct ⟨255, 0, 0, 255⟩ ≤ rawProduct ⟨255, 255, 255, 85⟩ ∧
    glyphIndexOf ⟨255, 255, 255, 85⟩ < glyphIndexOf ⟨255, 0, 0, 255⟩ := by
  refine ⟨by decide, ?_⟩
  rw [glyphIndexOf_eq, glyphIndexOf_eq]
  decide

/-- **C8 (amended).**  The glyph index is monotonically non-decreasing in the
product `(r' + g' + b') * a` of the alpha-premultiplied channel sum with
alpha — the quantity the code's intensity is the integer 255th part of.  (For
fully opaque pixels this product equals the claim's `(r+g+b)*alpha`.) -/
theorem glyphIndex_monotone (c1 c2 : NRGBA)
    (h : premultProduct c1 ≤ premultProduct c2) :
    glyphIndexOf c1 ≤ glyphIndexOf c2 := by
  rw [glyphIndexOf_eq, glyphIndexOf_eq]
  have hi : premultIntensity c1 ≤ premultIntensity c2 := Nat.div_le_div_right h
  have h2 : 2 * premultIntensity c1 + 54 ≤ 2 * premultIntensity c2 + 54 := by omega
  exact_mod_cast Nat.div_le_div_right h2

/-- Witness for `glyphIndex_monotone` at two concrete pixels. -/
theorem glyphIndex_monotone_witness :
    premultProduct ⟨0, 0, 0, 0⟩ ≤ premultProduct ⟨255, 255, 255, 255⟩ ∧
    glyphIndexOf ⟨0, 0, 0, 0⟩ ≤ glyphIndexOf ⟨255, 255, 255, 255⟩ :=
  ⟨by decide, glyphIndex_monotone _ _ (by decide)⟩

/-! ## Images and the two renderers

A Go `image.RGBA` whose bounds start at (0,0), as every image in the
pipeline does (`image.NewRGBA(image.Rect(0, 0, w, h))`).  `At` returns the
zero `color.RGBA{}` outside the bounds, without failing. -/

/-- An image: bounds `(0,0)-(w,h)` plus the stored pixels. -/
structure Image where
  w : ℕ
  h : ℕ
  pix : ℕ → ℕ → Pixel

/-- `image.RGBA.At(x, y)`: the stored pixel in bounds, `color.RGBA{}`
(transparent zero) outside. -/
def Image.at (img : Image) (x y : ℕ) : Pixel :=
  if x < img.w ∧ y < img.h then img.pix x y else transparentPixel

/-- Sequential concatenation, the output of a `strings.Builder` fed one
piece at a time. -/
def strConcat : List String → String
  | [] => ""
  | s :: rest => s ++ strConcat rest

/-- Number of newline characters in a string: how many newline-terminated
lines it contains. -/
def countNL (s : String) : ℕ := s.data.count '\n'

/-- The glyph `ImageToASCII` draws in grid cell (column `j`, row `i`):
`pixelToASCII(color.NRGBAModel.Convert(img.At(j, i)))`. -/
def asciiGlyph (img : Image) (j i : ℕ) : Char :=
  pixelToASCII (nrgbaOfPixel (Image.at img j i))

/-- One rendered cell of `ImageToASCII`.  The termenv styling collaborator is
abstracted as `style`, receiving the glyph and the foreground color the code
chooses for it: the global override when its alpha is positive
(`col.RGBA()`'s alpha `gc.a*257 > 0` iff `gc.a > 0`), otherwise the pixel. -/
def asciiCell (style : Char → NRGBA → String) (gc : NRGBA) (img : Image) (j i : ℕ) : String :=
  let pixel := nrgbaOfPixel (Image.at img j i)
  style (pixelToASCII pixel) (if 0 < gc.a then gc else pixel)

/-- One output row of `ImageToASCII` before its trailing newline:
the inner `for j := 0; j < width; j++` loop. -/
def asciiLine (style : Char → NRGBA → String) (gc : NRGBA) (img : Image) (w i : ℕ) : String :=
  strConcat ((List.range w).map fun j => asciiCell style gc img j i)

/-- `imageToASCII` / `Converter.ImageToASCII`: the outer
`for i := 0; i < height; i++` loop, each row followed by `"\n"`. -/
def imageToASCII (style : Char → NRGBA → String) (gc : NRGBA) (w h : ℕ) (img : Image) :
    String :=
  strConcat ((List.range h).map fun i => asciiLine style gc img w i ++ "\n")

/-- The glyph grid `ImageToASCII` renders: row `i`, column `j` holds the
glyph for `img.At(j, i)`. -/
def asciiRows (w h : ℕ) (img : Image) : List (List Char) :=
  (List.range h).map fun i => (List.range w).map fun j => asciiGlyph img j i

/-- Models termenv rendering under the `Ascii` color profile, where
`termenv.String(s).Foreground(...)` adds no escape codes: the cell is the
bare glyph. -/
def plainStyle : Char → NRGBA → String := fun ch _ => String.singleton ch

/-- The `y` values visited by `ImageToANSI`'s loop
`for y := 0; y < b.Max.Y; y += 2`: that is `0, 2, …`, one per iteration,
`⌈h/2⌉ = (h+1)/2` iterations in total. -/
def ansiRowYs (h : ℕ) : List ℕ := (List.range ((h + 1) / 2)).map (· * 2)

/-- One rendered cell of `ImageToANSI`: the "▀" block styled with foreground
`img.At(x, y)` and background `img.At(x, y+1)`; termenv is abstracted as
`style`. -/
def ansiCell (style : Pixel → Pixel → String) (img : Image) (x y : ℕ) : String :=
  style (Image.at img x y) (Image.at img x (y + 1))

/-- One output row of `ImageToANSI` before its trailing newline. -/
def ansiLine (style : Pixel → Pixel → String) (img : Image) (y : ℕ) : String :=
  strConcat ((List.range img.w).map fun x => ansiCell style img x y)

/-- `imageToANSI` / `Converter.ImageToANSI`: rows at `y = 0, 2, …`, each
followed by `"\n"`. -/
def imageToANSI (style : Pixel → Pixel → String) (img : Image) : String :=
  strConcat ((ansiRowYs img.h).map fun y => ansiLine style img y ++ "\n")

/-- The (foreground, background) pixel pairs `ImageToANSI` emits, row by
row. -/
def ansiRows (img : Image) : List (List (Pixel × Pixel)) :=
  (ansiRowYs img.h).map fun y =>
    (List.range img.w).map fun x => (Image.at img x y, Image.at img x (y + 1))

/-- Every `y` coordinate `ImageToANSI` samples: each visited row reads the
pixel rows `y` and `y + 1`. -/
def ansiSampledYs (h : ℕ) : List ℕ :=
  (ansiRowYs h).flatMap fun y => [y, y + 1]

/-- Models termenv's ANSI cell under the `Ascii` profile: the bare block
character. -/
def plainANSIStyle : Pixel → Pixel → String := fun _ _ => "▀"

/-- A 1×1 all-gray test image. -/
def oneByOne : Image := ⟨1, 1, fun _ _ => ⟨9, 9, 9, 255⟩⟩

/-! ### String-counting helpers -/

/-- Newlines in a concatenation. -/
theorem countNL_append (a b : String) : countNL (a ++ b) = countNL a + countNL b := by
  simp [countNL, String.data_append, List.count_append]

/-- Newlines in a sequential concatenation. -/
theorem countNL_strConcat (l : List String) :
    countNL (strConcat l) = (l.map countNL).sum := by
  induction l with
  | nil => rfl
  | cons s rest ih => simp [strConcat, countNL_append, ih]

/-- A nonempty list of newline-terminated pieces concatenates to a string
ending in a newline. -/
theorem strConcat_terminated (l : List String) (hl : l ≠ []) :
    ∃ s, strConcat (l.map (· ++ "\n")) = s ++ "\n" := by
  induction l with
  | nil => exact absurd rfl hl
  | cons a rest ih =>
    cases rest with
    | nil => exact ⟨a, by simp [strConcat]⟩
    | cons b rest' =>
      obtain ⟨s, hs⟩ := ih (by simp)
      refine ⟨a ++ "\n" ++ s, ?_⟩
      simp only [strConcat, List.map_cons] at hs ⊢
      rw [hs]
      simp [String.append_assoc]

/-- `getD` of a mapped range. -/
theorem getD_map_range {α : Type} {n i : ℕ} (f : ℕ → α) (d : α) (h : i < n) :
    ((List.range n).map f).getD i d = f i := by
  rw [List.getD_eq_getElem?_getD, List.getElem?_map, List.getElem?_range h]
  rfl

/-- Rows of `ImageToASCII` contain no newline apart from the terminators. -/
theorem countNL_asciiLine (style : Char → NRGBA → String) (gc : NRGBA) (img : Image)
    (w i : ℕ) (hstyle : ∀ ch c, countNL (style ch c) = 0) :
    countNL (asciiLine style gc img w i) = 0 := by
  rw [asciiLine, countNL_strConcat]
  apply List.sum_eq_zero
  intro x hx
  simp only [List.map_map, List.mem_map, Function.comp] at hx
  obtain ⟨j, -, rfl⟩ := hx
  simp [asciiCell, hstyle]

/-- Rows of `ImageToANSI` contain no newline apart from the terminators. -/
theorem countNL_ansiLine (style : Pixel → Pixel → String) (img : Image) (y : ℕ)
    (hstyle : ∀ p q, countNL (style p q) = 0) :
    countNL (ansiLine style img y) = 0 := by
  rw [ansiLine, countNL_strConcat]
  apply List.sum_eq_zero
  intro x hx
  simp only [List.map_map, List.mem_map, Function.comp] at hx
  obtain ⟨j, -, rfl⟩ := hx
  simp [ansiCell, hstyle]

/-- Newline count of a renderer-shaped concatenation: one newline per row. -/
theorem countNL_rows (lines : List String) (hlines : ∀ s ∈ lines, countNL s = 0) :
    countNL (strConcat (lines.map (· ++ "\n"))) = lines.length := by
  rw [countNL_strConcat, List.map_map]
  have h1 : lines.map (countNL ∘ fun s => s ++ "\n") = lines.map fun _ => 1 := by
    apply List.map_congr_left
    intro s hs
    simp only [Function.comp_apply, countNL_append, hlines s hs]
    decide
  rw [h1]
  simp [List.map_const']

/-- **C6, counterexample.**  `imageToASCII` with width 0 and height 1 outputs
a single newline, not the empty string: the row loop writes its terminator
even when the cell loop is empty. -/
theorem imageToASCII_empty_counterexample :
    imageToASCII plainStyle ⟨0, 0, 0, 0⟩ 0 1 oneByOne ≠ "" := by decide

/-- **C6 (amended).**  `ImageToASCII` emits exactly `h` newline-terminated
lines of exactly `w` cells each, rows top-to-bottom (row `i` samples pixel
row `i`) and cells left-to-right (cell `j` samples pixel column `j`); the
output is empty when `h = 0`, and consists of `h` bare newlines when
`w = 0` (not the empty string). -/
theorem imageToASCII_grid (style : Char → NRGBA → String) (gc : NRGBA) (w h : ℕ)
    (img : Image) (hstyle : ∀ ch c, countNL (style ch c) = 0) :
    (asciiRows w h img).length = h ∧
    (∀ row ∈ asciiRows w h img, row.length = w) ∧
    (∀ i j, i < h → j < w →
      ((asciiRows w h img).getD i []).getD j 'X' = asciiGlyph img j i) ∧
    countNL (imageToASCII style gc w h img) = h ∧
    (h = 0 → imageToASCII style gc w h img = "") ∧
    (w = 0 → imageToASCII style gc w h img = strConcat (List.replicate h "\n")) := by
  refine ⟨by simp [asciiRows], ?_, ?_, ?_, ?_, ?_⟩
  · intro row hrow
    simp only [asciiRows, List.mem_map] at hrow
    obtain ⟨i, -, rfl⟩ := hrow
    simp
  · intro i j hi hj
    rw [asciiRows, getD_map_range _ _ hi, getD_map_range _ _ hj]
  · rw [imageToASCII]
    have hmm : ((List.range h).map fun i => asciiLine style gc img w i ++ "\n")
        = ((List.range h).map fun i => asciiLine style gc img w i).map (· ++ "\n") := by
      rw [List.map_map]
      rfl
    rw [hmm, countNL_rows]
    · simp
    · intro s hs
      simp only [List.mem_map] at hs
      obtain ⟨i, -, rfl⟩ := hs
      exact countNL_asciiLine style gc img w i hstyle
  · intro h0
    subst h0
    rfl
  · intro hw
    subst hw
    rw [imageToASCII]
    have h1 : ((List.range h).map fun i => asciiLine style gc img 0 i ++ "\n")
        = (List.range h).map fun _ => "\n" := by
      apply List.map_congr_left
      intro i hi
      show strConcat [] ++ "\n" = "\n"
      simp [strConcat]
    rw [h1, List.map_const', List.length_range]

/-- **C10.**  Sampling outside the image bounds yields Go's zero
`color.RGBA{}`, a fully transparent pixel, so an out-of-bounds grid cell of
`ImageToASCII` is rendered as the first (lightest) glyph of the table,
styled with the chosen foreground color; no failure occurs. -/
theorem ascii_out_of_bounds (style : Char → NRGBA → String) (gc : NRGBA) (img : Image)
    (j i : ℕ) (h : ¬(j < img.w ∧ i < img.h)) :
    Image.at img j i = transparentPixel ∧
    asciiGlyph img j i = pixels.getD 0 'X' ∧
    pixels.getD 0 'X' = ' ' ∧
    asciiCell style gc img j i = style ' ' (if 0 < gc.a then gc else ⟨0, 0, 0, 0⟩) := by
  have hat : Image.at img j i = transparentPixel := by
    rw [Image.at, if_neg h]
  have hn : nrgbaOfPixel transparentPixel = ⟨0, 0, 0, 0⟩ := by decide
  have hglyph : pixelToASCII ⟨0, 0, 0, 0⟩ = ' ' := by
    rw [pixelToASCII_def, glyphIndexOf_eq]
    decide
  refine ⟨hat, ?_, by decide, ?_⟩
  · rw [asciiGlyph, hat, hn, hglyph]
    decide
  · rw [asciiCell]
    rw [hat, hn, hglyph]

/-- Witness for `ascii_out_of_bounds`: column 5 of a 1×1 image. -/
theorem ascii_out_of_bounds_witness :
    ¬(5 < oneByOne.w ∧ 0 < oneByOne.h) ∧
    (Image.at oneByOne 5 0 = transparentPixel ∧
      asciiGlyph oneByOne 5 0 = pixels.getD 0 'X' ∧
      pixels.getD 0 'X' = ' ' ∧
      asciiCell plainStyle ⟨0, 0, 0, 0⟩ oneByOne 5 0 =
        plainStyle ' ' (if 0 < (0 : ℕ) then ⟨0, 0, 0, 0⟩ else ⟨0, 0, 0, 0⟩)) :=
  ⟨by decide, ascii_out_of_bounds plainStyle ⟨0, 0, 0, 0⟩ oneByOne 5 0 (by decide)⟩

/-- A 1×2 two-pixel test image (even height). -/
def twoTall : Image := ⟨1, 2, fun _ y => ⟨100 + y, 0, 0, 255⟩⟩

/-- The ANSI cell style never contains a newline. -/
theorem plainANSIStyle_nl (p q : Pixel) : countNL (plainANSIStyle p q) = 0 := by
  show countNL "▀" = 0
  decide

/-- **C7.**  On an image of even height `H`, `ImageToANSI` emits exactly
`H/2` newline-terminated lines (a newline after every row, the final one
included), each of `W` cells, and the cell at column `x` of output row `k`
uses pixel `(x, 2k)` as foreground and pixel `(x, 2k+1)` as background. -/
theorem imageToANSI_even (style : Pixel → Pixel → String) (img : Image)
    (heven : img.h % 2 = 0) (hstyle : ∀ p q, countNL (style p q) = 0) :
    (ansiRows img).length = img.h / 2 ∧
    (∀ row ∈ ansiRows img, row.length = img.w) ∧
    (∀ k x, k < img.h / 2 → x < img.w →
      ((ansiRows img).getD k []).getD x (transparentPixel, transparentPixel) =
        (Image.at img x (2 * k), Image.at img x (2 * k + 1))) ∧
    countNL (imageToANSI style img) = img.h / 2 ∧
    (0 < img.h → ∃ s, imageToANSI style img = s ++ "\n") := by
  have hlen : (img.h + 1) / 2 = img.h / 2 := by omega
  refine ⟨?_, ?_, ?_, ?_, ?_⟩
  · simp [ansiRows, ansiRowYs, hlen]
  · intro row hrow
    simp only [ansiRows, ansiRowYs, List.mem_map, List.map_map] at hrow
    obtain ⟨y, -, rfl⟩ := hrow
    simp
  · intro k x hk hx
    have hk' : k < (img.h + 1) / 2 := by omega
    rw [ansiRows, ansiRowYs, List.map_map, getD_map_range _ _ hk', Function.comp_apply,
      getD_map_range _ _ hx]
    rw [Nat.mul_comm k 2]
  · rw [imageToANSI]
    have hmm : ((ansiRowYs img.h).map fun y => ansiLine style img y ++ "\n")
        = ((ansiRowYs img.h).map fun y => ansiLine style img y).map (· ++ "\n") := by
      rw [List.map_map]
      rfl
    rw [hmm, countNL_rows]
    · simp [ansiRowYs, hlen]
    · intro s hs
      simp only [List.mem_map] at hs
      obtain ⟨y, -, rfl⟩ := hs
      exact countNL_ansiLine style img y hstyle
  · intro hh
    rw [imageToANSI]
    have hmm : ((ansiRowYs img.h).map fun y => ansiLine style img y ++ "\n")
        = ((ansiRowYs img.h).map fun y => ansiLine style img y).map (· ++ "\n") := by
      rw [List.map_map]
      rfl
    rw [hmm]
    apply strConcat_terminated
    simp only [ne_eq, List.map_eq_nil_iff, ansiRowYs, List.range_eq_nil]
    omega

/-- Witness for `imageToANSI_even` on the 1×2 image `twoTall`. -/
theorem imageToANSI_even_witness :
    twoTall.h % 2 = 0 ∧
    ((ansiRows twoTall).length = twoTall.h / 2 ∧
      (∀ row ∈ ansiRows twoTall, row.length = twoTall.w) ∧
      (∀ k x, k < twoTall.h / 2 → x < twoTall.w →
        ((ansiRows twoTall).getD k []).getD x (transparentPixel, transparentPixel) =
          (Image.at twoTall x (2 * k), Image.at twoTall x (2 * k + 1))) ∧
      countNL (imageToANSI plainANSIStyle twoTall) = twoTall.h / 2 ∧
      (0 < twoTall.h → ∃ s, imageToANSI plainANSIStyle twoTall = s ++ "\n")) :=
  ⟨by decide, imageToANSI_even plainANSIStyle twoTall (by decide) (fun p q => plainANSIStyle_nl p q)⟩

/-- **C2, counterexample.**  On a 1×1 image (odd height `H = 1`) the loop
`for y := 0; y < H; y += 2` still runs its `y = 0` iteration: the output has
one newline-terminated line, not `(H-1)/2 = 0`, and the background sample of
that line reads pixel row `y + 1 = 1 = H`, which lies outside the image. -/
theorem imageToANSI_odd_counterexample :
    (ansiRows oneByOne).length ≠ (oneByOne.h - 1) / 2 ∧
    countNL (imageToANSI plainANSIStyle oneByOne) ≠ (oneByOne.h - 1) / 2 ∧
    oneByOne.h ∈ ansiSampledYs oneByOne.h := by decide

/-- **C2 (amended).**  For odd image height `H`, `ImageToANSI` does *not*
drop the last row: it emits exactly `(H+1)/2` newline-terminated lines, the
final one pairing pixel row `H-1` with the out-of-bounds row `H`; row `H` is
sampled (it is among the `y` coordinates the loop reads), and each such read
returns Go's transparent zero `color.RGBA{}` rather than failing. -/
theorem imageToANSI_odd (style : Pixel → Pixel → String) (img : Image)
    (hodd : img.h % 2 = 1) (hstyle : ∀ p q, countNL (style p q) = 0) :
    (ansiRows img).length = (img.h + 1) / 2 ∧
    countNL (imageToANSI style img) = (img.h + 1) / 2 ∧
    img.h ∈ ansiSampledYs img.h ∧
    (∀ x, Image.at img x img.h = transparentPixel) := by
  refine ⟨by simp [ansiRows, ansiRowYs], ?_, ?_, ?_⟩
  · rw [imageToANSI]
    have hmm : ((ansiRowYs img.h).map fun y => ansiLine style img y ++ "\n")
        = ((ansiRowYs img.h).map fun y => ansiLine style img y).map (· ++ "\n") := by
      rw [List.map_map]
      rfl
    rw [hmm, countNL_rows]
    · simp [ansiRowYs]
    · intro s hs
      simp only [List.mem_map] at hs
      obtain ⟨y, -, rfl⟩ := hs
      exact countNL_ansiLine style img y hstyle
  · simp only [ansiSampledYs, ansiRowYs, List.mem_flatMap, List.mem_map, List.mem_range]
    refine ⟨img.h - 1, ⟨img.h / 2, by omega, by omega⟩, ?_⟩
    simp
    omega
  · intro x
    rw [Image.at, if_neg]
    intro hcon
    omega

/-- Witness for `imageToANSI_odd` on the 1×1 image `oneByOne`. -/
theorem imageToANSI_odd_witness :
    oneByOne.h % 2 = 1 ∧
    ((ansiRows oneByOne).length = (oneByOne.h + 1) / 2 ∧
      countNL (imageToANSI plainANSIStyle oneByOne) = (oneByOne.h + 1) / 2 ∧
      oneByOne.h ∈ ansiSampledYs oneByOne.h ∧
      (∀ x, Image.at oneByOne x oneByOne.h = transparentPixel)) :=
  ⟨by decide, imageToANSI_odd plainANSIStyle oneByOne (by decide) (fun p q => plainANSIStyle_nl p q)⟩

/-- A constant cell style used by witnesses; it never contains a newline. -/
def dotStyle : Char → NRGBA → String := fun _ _ => "."

/-- `dotStyle` satisfies the newline-freeness hypothesis of the renderer
theorems. -/
theorem dotStyle_nl (ch : Char) (c : NRGBA) : countNL (dotStyle ch c) = 0 := by
  show countNL "." = 0
  decide

/-- Witness for `imageToASCII_grid` at concrete dimensions 2×3. -/
theorem imageToASCII_grid_witness :
    (asciiRows 2 3 oneByOne).length = 3 ∧
    (∀ row ∈ asciiRows 2 3 oneByOne, row.length = 2) ∧
    (∀ i j, i < 3 → j < 2 →
      ((asciiRows 2 3 oneByOne).getD i []).getD j 'X' = asciiGlyph oneByOne j i) ∧
    countNL (imageToASCII dotStyle ⟨0, 0, 0, 0⟩ 2 3 oneByOne) = 3 ∧
    ((3 : ℕ) = 0 → imageToASCII dotStyle ⟨0, 0, 0, 0⟩ 2 3 oneByOne = "") ∧
    ((2 : ℕ) = 0 → imageToASCII dotStyle ⟨0, 0, 0, 0⟩ 2 3 oneByOne =
      strConcat (List.replicate 3 "\n")) :=
  imageToASCII_grid dotStyle ⟨0, 0, 0, 0⟩ 2 3 oneByOne dotStyle_nl

/-! ## Background subtractor (`greenscreen` / `Processor.Apply`)

The Lab conversion and distance come from the external go-colorful library
(`colorful.MakeColor`, `DistanceLab`); the subtractor only compares the
resulting distance against the threshold, so the distance is abstracted as a
function `dist` of the two 8-bit pixels it is computed from. -/

/-- The pixel coordinates visited by `Apply`'s nested loops, in order:
`y` outer from 0, `x` inner from 0. -/
def coordSeq (h w : ℕ) : List (ℕ × ℕ) :=
  (List.range h).flatMap fun y => (List.range w).map fun x => (x, y)

/-- `image.RGBA.Set(x, y, c)`: writes the pixel if `(x,y)` is inside the
bounds, otherwise does nothing. -/
def Image.set (img : Image) (x y : ℕ) (c : Pixel) : Image :=
  if x < img.w ∧ y < img.h then
    ⟨img.w, img.h, fun x' y' => if x' = x ∧ y' = y then c else img.pix x' y'⟩
  else img

/-- One loop body of `Apply`: if the current foreground pixel is within
`dist` threshold `t` of the background pixel, store `image.Transparent`
(which `image.RGBA` stores as the zero `RGBA{0,0,0,0}`). -/
def applyStep (dist : Pixel → Pixel → ℚ) (t : ℚ) (bg : Image) (img : Image)
    (c : ℕ × ℕ) : Image :=
  if dist (Image.at img c.1 c.2) (Image.at bg c.1 c.2) < t then
    Image.set img c.1 c.2 transparentPixel
  else img

/-- `greenscreen(img, bg, dist)` / `Processor.Apply`: the in-place double
loop over all pixel coordinates (the background is present; with no
background the function is a no-op and never reaches this loop). -/
def greenscreenApply (dist : Pixel → Pixel → ℚ) (t : ℚ) (bg : Image) (img : Image) :
    Image :=
  (coordSeq img.h img.w).foldl (applyStep dist t bg) img

/-- `applyStep` never changes the image dimensions. -/
theorem applyStep_dims (dist : Pixel → Pixel → ℚ) (t : ℚ) (bg img : Image) (c : ℕ × ℕ) :
    (applyStep dist t bg img c).w = img.w ∧ (applyStep dist t bg img c).h = img.h := by
  rw [applyStep]
  split
  · rw [Image.set]
    split <;> simp
  · exact ⟨rfl, rfl⟩

/-- A fold of `applyStep`s never changes the image dimensions. -/
theorem applyFold_dims (dist : Pixel → Pixel → ℚ) (t : ℚ) (bg : Image) (l : List (ℕ × ℕ)) :
    ∀ img : Image, ((l.foldl (applyStep dist t bg) img).w = img.w ∧
      (l.foldl (applyStep dist t bg) img).h = img.h) := by
  induction l with
  | nil => exact fun img => ⟨rfl, rfl⟩
  | cons c rest ih =>
    intro img
    have h1 := applyStep_dims dist t bg img c
    have h2 := ih (applyStep dist t bg img c)
    simp only [List.foldl_cons]
    omega

/-- `applyStep` at a coordinate other than `(x,y)` does not change the pixel
read at `(x,y)`. -/
theorem applyStep_at_other (dist : Pixel → Pixel → ℚ) (t : ℚ) (bg img : Image)
    (c : ℕ × ℕ) (x y : ℕ) (hne : c ≠ (x, y)) :
    Image.at (applyStep dist t bg img c) x y = Image.at img x y := by
  have hne' : ¬(x = c.1 ∧ y = c.2) := fun hcon => hne (Prod.ext hcon.1.symm hcon.2.symm)
  unfold applyStep Image.set
  split
  · split
    · simp [Image.at, hne']
    · rfl
  · rfl

/-- A fold of `applyStep`s over coordinates avoiding `(x,y)` does not change
the pixel read at `(x,y)`. -/
theorem applyFold_at_other (dist : Pixel → Pixel → ℚ) (t : ℚ) (bg : Image)
    (l : List (ℕ × ℕ)) (x y : ℕ) (hx : (x, y) ∉ l) :
    ∀ img : Image, Image.at (l.foldl (applyStep dist t bg) img) x y = Image.at img x y := by
  induction l with
  | nil => exact fun img => rfl
  | cons c rest ih =>
    intro img
    simp only [List.mem_cons, not_or] at hx
    simp only [List.foldl_cons]
    rw [ih hx.2, applyStep_at_other dist t bg img c x y (fun hc => hx.1 hc.symm)]

/-- Membership in the coordinate sequence is exactly being in bounds. -/
theorem coordSeq_mem (h w x y : ℕ) : (x, y) ∈ coordSeq h w ↔ x < w ∧ y < h := by
  simp only [coordSeq, List.mem_flatMap, List.mem_map, List.mem_range, Prod.mk.injEq]
  constructor
  · rintro ⟨a, ha, b, hb, rfl, rfl⟩
    exact ⟨hb, ha⟩
  · intro ⟨hx, hy⟩
    exact ⟨y, hy, x, hx, rfl, rfl⟩

/-- Each coordinate is visited exactly once. -/
theorem coordSeq_nodup (h w : ℕ) : (coordSeq h w).Nodup := by
  rw [coordSeq, List.nodup_flatMap]
  constructor
  · intro y hy
    exact List.Nodup.map (fun a b hab => congrArg Prod.fst hab) (List.nodup_range w)
  · apply List.Pairwise.imp ?_ (List.pairwise_lt_range h)
    intro a b hab p hpa hpb
    simp only [List.mem_map, List.mem_range] at hpa hpb
    obtain ⟨xa, -, rfl⟩ := hpa
    obtain ⟨xb, -, heq⟩ := hpb
    exact absurd (congrArg Prod.snd heq) (by simp; omega)

/-- Writing a pixel in bounds and reading it back. -/
theorem at_set_self (img : Image) (x y : ℕ) (c : Pixel)
    (hin : x < img.w ∧ y < img.h) : Image.at (Image.set img x y c) x y = c := by
  rw [Image.set, if_pos hin, Image.at]
  simp [hin]

/-- Pointwise characterization of `Apply`: each pixel is decided once, from
the *original* foreground pixel at its own coordinate (earlier writes touch
other coordinates only), so the in-place loop equals the pointwise map. -/
theorem greenscreenApply_at (dist : Pixel → Pixel → ℚ) (t : ℚ) (bg img : Image)
    (x y : ℕ) :
    Image.at (greenscreenApply dist t bg img) x y =
      if x < img.w ∧ y < img.h ∧ dist (Image.at img x y) (Image.at bg x y) < t
      then transparentPixel
      else Image.at img x y := by
  by_cases hin : x < img.w ∧ y < img.h
  · have hmem : (x, y) ∈ coordSeq img.h img.w := (coordSeq_mem _ _ _ _).2 hin
    obtain ⟨s, t', hl⟩ := List.append_of_mem hmem
    have hnd := coordSeq_nodup img.h img.w
    rw [hl] at hnd
    have hnds := List.nodup_append.1 hnd
    have hnotmem_s : (x, y) ∉ s := fun hmem_s =>
      hnds.2.2 hmem_s (List.mem_cons_self _ _)
    have hnotmem_t : (x, y) ∉ t' := (List.nodup_cons.1 hnds.2.1).1
    rw [greenscreenApply, hl, List.foldl_append, List.foldl_cons]
    rw [applyFold_at_other dist t bg t' x y hnotmem_t]
    have himg1at : Image.at (s.foldl (applyStep dist t bg) img) x y = Image.at img x y :=
      applyFold_at_other dist t bg s x y hnotmem_s img
    have hdims := applyFold_dims dist t bg s img
    simp only [applyStep, himg1at]
    split
    · rename_i hlt
      rw [at_set_self _ _ _ _ (by rw [hdims.1, hdims.2]; exact hin)]
      rw [if_pos ⟨hin.1, hin.2, hlt⟩]
    · rename_i hnlt
      rw [himg1at, if_neg (fun hcon => hnlt hcon.2.2)]
  · have hd := applyFold_dims dist t bg (coordSeq img.h img.w) img
    rw [if_neg (fun hcon => hin ⟨hcon.1, hcon.2.1⟩)]
    rw [greenscreenApply, Image.at, Image.at,
      if_neg (fun hcon => hin (by rw [hd.1, hd.2] at hcon; exact hcon)), if_neg hin]

/-- **C5.**  With a background of identical dimensions, `Apply` overwrites
exactly the foreground pixels whose abstracted color distance to the
corresponding background pixel is strictly below the threshold — those
become the transparent zero pixel (alpha 0) — and leaves every other pixel,
and the image dimensions, bitwise unchanged.  `dist` abstracts go-colorful's
`c1.DistanceLab(c2)` as a function of the two 8-bit pixels it is computed
from. -/
theorem greenscreenApply_spec (dist : Pixel → Pixel → ℚ) (t : ℚ) (bg img : Image)
    (_hw : bg.w = img.w) (_hh : bg.h = img.h) :
    (greenscreenApply dist t bg img).w = img.w ∧
    (greenscreenApply dist t bg img).h = img.h ∧
    (∀ x y, x < img.w → y < img.h →
      (dist (Image.at img x y) (Image.at bg x y) < t →
          Image.at (greenscreenApply dist t bg img) x y = transparentPixel ∧
          (Image.at (greenscreenApply dist t bg img) x y).a = 0) ∧
      (¬ dist (Image.at img x y) (Image.at bg x y) < t →
          Image.at (greenscreenApply dist t bg img) x y = Image.at img x y)) ∧
    (∀ x y, ¬(x < img.w ∧ y < img.h) →
      Image.at (greenscreenApply dist t bg img) x y = Image.at img x y) := by
  have hd := applyFold_dims dist t bg (coordSeq img.h img.w) img
  refine ⟨hd.1, hd.2, ?_, ?_⟩
  · intro x y hx hy
    constructor
    · intro hlt
      rw [greenscreenApply_at, if_pos ⟨hx, hy, hlt⟩]
      exact ⟨rfl, rfl⟩
    · intro hnlt
      rw [greenscreenApply_at, if_neg (fun hcon => hnlt hcon.2.2)]
  · intro x y hout
    rw [greenscreenApply_at, if_neg (fun hcon => hout ⟨hcon.1, hcon.2.1⟩)]

/-- A constant 1×1 foreground for the `greenscreenApply_spec` witness. -/
def fgSample : Image := ⟨1, 1, fun _ _ => ⟨10, 20, 30, 255⟩⟩

/-- A constant 1×1 background for the `greenscreenApply_spec` witness. -/
def bgSample : Image := ⟨1, 1, fun _ _ => ⟨10, 20, 31, 255⟩⟩

/-- A concrete stand-in distance for the witness: 0 for equal pixels, 1
otherwise. -/
def discreteDist : Pixel → Pixel → ℚ := fun p q => if p = q then 0 else 1

/-- Witness for `greenscreenApply_spec` on concrete 1×1 images. -/
theorem greenscreenApply_spec_witness :
    bgSample.w = fgSample.w ∧ bgSample.h = fgSample.h ∧
    ((greenscreenApply discreteDist (1 / 2) bgSample fgSample).w = fgSample.w ∧
      (greenscreenApply discreteDist (1 / 2) bgSample fgSample).h = fgSample.h ∧
      (∀ x y, x < fgSample.w → y < fgSample.h →
        (discreteDist (Image.at fgSample x y) (Image.at bgSample x y) < 1 / 2 →
            Image.at (greenscreenApply discreteDist (1 / 2) bgSample fgSample) x y =
              transparentPixel ∧
            (Image.at (greenscreenApply discreteDist (1 / 2) bgSample fgSample) x y).a = 0) ∧
        (¬ discreteDist (Image.at fgSample x y) (Image.at bgSample x y) < 1 / 2 →
            Image.at (greenscreenApply discreteDist (1 / 2) bgSample fgSample) x y =
              Image.at fgSample x y)) ∧
      (∀ x y, ¬(x < fgSample.w ∧ y < fgSample.h) →
        Image.at (greenscreenApply discreteDist (1 / 2) bgSample fgSample) x y =
          Image.at fgSample x y)) :=
  ⟨rfl, rfl, greenscreenApply_spec discreteDist (1 / 2) bgSample fgSample rfl rfl⟩

/-! ## Background-sample loader (`loadBgSamples`) and startup -/

/-- Go's `fmt.Sprintf("%s/%d.png", path, i)`. -/
def samplePNGPath (path : String) (i : ℕ) : String :=
  path ++ "/" ++ toString i ++ ".png"

/-- The fixed, hardcoded sample index the loader reads: `i := 40`. -/
def bgSampleIndex : ℕ := 40

/-- The file-system collaborator: file contents (as bytes) by name, `none`
when the file does not exist. -/
structure FS where
  files : String → Option (List ℕ)

/-- `loadBgSamples` / `Processor.loadBgSamples`: read `"<path>/40.png"`,
decode it as PNG, resize to the terminal dimensions.  `decode` abstracts
`png.Decode` (`none` = decode error) and `resizeFn` abstracts
`resize.Resize` with bilinear interpolation. -/
def loadBgSamples (decode : List ℕ → Option Image) (resizeFn : ℕ → ℕ → Image → Image)
    (fs : FS) (samplePath : String) (width height : ℕ) : Except String Image :=
  match fs.files (samplePNGPath samplePath bgSampleIndex) with
  | none => Except.error "failed to read background sample"
  | some bytes =>
    match decode bytes with
    | none => Except.error "failed to decode background sample"
    | some img => Except.ok (resizeFn width height img)

/-- The greenscreen-initialization slice of the cmd `run` function: when
greenscreen mode is requested, a loader failure makes `run` return an
error; otherwise startup proceeds. -/
def runGreenscreenInit (useGreenscreen : Bool) (loadResult : Except String Image) :
    Except String (Option Image) :=
  if useGreenscreen then
    match loadResult with
    | Except.error e => Except.error ("error loading background samples: " ++ e)
    | Except.ok img => Except.ok (some img)
  else Except.ok none

/-- `main`: an error returned by `run` is printed and the process exits with
code 1; otherwise it exits 0. -/
def mainExitCode (runResult : Except String (Option Image)) : ℕ :=
  match runResult with
  | Except.error _ => 1
  | Except.ok _ => 0

/-- **C9.**  The loader consults exactly the one file `"<samplePath>/40.png"`
(never another index, the most recent sample, or an average): its result
depends only on that file's contents; when the file is absent it returns an
error, and with greenscreen mode requested that error aborts startup with a
non-zero exit code. -/
theorem loadBgSamples_spec (decode : List ℕ → Option Image)
    (resizeFn : ℕ → ℕ → Image → Image) (fs fs' : FS) (samplePath : String)
    (width height : ℕ)
    (hagree : fs.files (samplePNGPath samplePath bgSampleIndex) =
      fs'.files (samplePNGPath samplePath bgSampleIndex))
    (hmiss : fs.files (samplePNGPath samplePath bgSampleIndex) = none) :
    samplePNGPath samplePath bgSampleIndex = samplePath ++ "/40.png" ∧
    loadBgSamples decode resizeFn fs samplePath width height =
      loadBgSamples decode resizeFn fs' samplePath width height ∧
    (∃ e, loadBgSamples decode resizeFn fs samplePath width height = Except.error e) ∧
    mainExitCode (runGreenscreenInit true
      (loadBgSamples decode resizeFn fs samplePath width height)) = 1 := by
  refine ⟨?_, ?_, ?_, ?_⟩
  · show samplePath ++ "/" ++ toString bgSampleIndex ++ ".png" = samplePath ++ "/40.png"
    have h40 : toString bgSampleIndex = "40" := by decide
    rw [h40, String.append_assoc, String.append_assoc]
    rfl
  · rw [loadBgSamples, loadBgSamples, ← hagree]
  · rw [loadBgSamples, hmiss]
    exact ⟨_, rfl⟩
  · rw [loadBgSamples, hmiss]
    rfl

/-- An empty file system for the `loadBgSamples_spec` witness. -/
def emptyFS : FS := ⟨fun _ => none⟩

/-- A decoder stub for the `loadBgSamples_spec` witness. -/
def noDecode : List ℕ → Option Image := fun _ => none

/-- A resize stub for the `loadBgSamples_spec` witness. -/
def idResize : ℕ → ℕ → Image → Image := fun _ _ img => img

/-- Witness for `loadBgSamples_spec`: empty file system, sample path "bg". -/
theorem loadBgSamples_spec_witness :
    emptyFS.files (samplePNGPath "bg" bgSampleIndex) =
      emptyFS.files (samplePNGPath "bg" bgSampleIndex) ∧
    emptyFS.files (samplePNGPath "bg" bgSampleIndex) = none ∧
    (samplePNGPath "bg" bgSampleIndex = "bg" ++ "/40.png" ∧
      loadBgSamples noDecode idResize emptyFS "bg" 80 24 =
        loadBgSamples noDecode idResize emptyFS "bg" 80 24 ∧
      (∃ e, loadBgSamples noDecode idResize emptyFS "bg" 80 24 = Except.error e) ∧
      mainExitCode (runGreenscreenInit true
        (loadBgSamples noDecode idResize emptyFS "bg" 80 24)) = 1) :=
  ⟨rfl, rfl, loadBgSamples_spec noDecode idResize emptyFS emptyFS "bg" 80 24 rfl rfl⟩

/-! ## Pipeline loop: FPS bookkeeping and sample generation -/

/-- `fps[0] = float64(time.Second / time.Since(now))`: `time.Duration` is an
`int64` count of nanoseconds, `time.Second` is `10^9`, and `/` is Go integer
division (truncated), which *panics* on a zero divisor — modelled as `none`
for a zero elapsed time. -/
def fpsOfElapsedNs (elapsed : ℤ) : Option ℤ :=
  if elapsed = 0 then none else some (Int.tdiv 1000000000 elapsed)

/-- The FPS window built before the loop: ten zeros. -/
def fpsInit : List ℚ := List.replicate 10 0

/-- The window update `for i := len(fps)-1; i > 0; i-- { fps[i] = fps[i-1] }`
followed by `fps[0] = v`: prepend `v`, drop the last entry. -/
def fpsShift (fps : List ℚ) (v : ℚ) : List ℚ := v :: fps.dropLast

/-- The reported mean `fpsa / float64(len(fps))`. -/
def fpsMean (fps : List ℚ) : ℚ := fps.sum / (fps.length : ℚ)

/-- **C3.**  The FPS conversion `time.Second / elapsed` is an int64 division
with no guard: at `elapsed = 0` it is a division by zero (a Go runtime
panic), contradicting the claim; for any nonzero elapsed time it is the
truncated quotient.  The rest of the bookkeeping is division-safe: the
window keeps its length under shifting, so the mean always divides by the
fixed window length 10. -/
theorem fps_bookkeeping :
    fpsOfElapsedNs 0 = none ∧
    (∀ d : ℤ, d ≠ 0 → fpsOfElapsedNs d = some (Int.tdiv 1000000000 d)) ∧
    fpsInit.length = 10 ∧
    (∀ fps : List ℚ, ∀ v : ℚ, fps ≠ [] → (fpsShift fps v).length = fps.length) ∧
    (∀ fps : List ℚ, fps.length = 10 → fpsMean fps = fps.sum / 10) := by
  refine ⟨rfl, fun d hd => by rw [fpsOfElapsedNs, if_neg hd], rfl, ?_, ?_⟩
  · intro fps v hne
    rw [fpsShift, List.length_cons, List.length_dropLast]
    have := List.length_pos.2 hne
    omega
  · intro fps hlen
    rw [fpsMean, hlen]
    norm_num

/-- Witness for `fps_bookkeeping` at concrete inputs. -/
theorem fps_bookkeeping_witness :
    fpsOfElapsedNs 0 = none ∧
    fpsOfElapsedNs 16666667 = some (Int.tdiv 1000000000 16666667) ∧
    (fpsShift fpsInit 60).length = fpsInit.length ∧
    fpsMean fpsInit = fpsInit.sum / 10 :=
  ⟨fps_bookkeeping.1, fps_bookkeeping.2.1 16666667 (by decide),
    fps_bookkeeping.2.2.2.1 fpsInit 60 (by decide),
    fps_bookkeeping.2.2.2.2 fpsInit (by decide)⟩

/-- The frame indices written by the sample-generation arm of the loop,
starting at `frameCount = fc` with every capture succeeding:

```go
gsProcessor.GenerateSamples(img, frameCount)   // writes frameCount.png
frameCount++
if frameCount > 100 { println("Generated 100 background samples."); return nil }
```
-/
def sampleGenLoop (fc : ℕ) : List ℕ :=
  if fc + 1 > 100 then [fc]
  else fc :: sampleGenLoop (fc + 1)
termination_by 101 - fc
decreasing_by omega

/-- Closed form of the sample-generation run. -/
theorem sampleGenLoop_eq (k : ℕ) : ∀ fc, fc + k = 100 →
    sampleGenLoop fc = List.range' fc (k + 1) := by
  induction k with
  | zero =>
    intro fc h
    rw [sampleGenLoop, if_pos (by omega)]
    rfl
  | succ n ih =>
    intro fc h
    rw [sampleGenLoop, if_neg (by omega), ih (fc + 1) (by omega)]
    rfl

/-- **C4.**  A sample-generation run with every capture succeeding writes the
files `0.png` through `100.png` — 101 numbered samples, not 100 — before the
loop prints "Generated 100 background samples." and terminates successfully:
the write happens before the increment-and-check, so `100.png` is still
written on the iteration that stops the loop. -/
theorem sampleGen_writes :
    sampleGenLoop 0 = List.range 101 ∧ (sampleGenLoop 0).length = 101 := by
  have h := sampleGenLoop_eq 100 0 rfl
  rw [h, List.range_eq_range']
  exact ⟨rfl, by simp⟩

end Asciicam
